import Mathlib

/-!
Shallow embedding of the momobel/raytracer rendering core.

Real-valued (f64) quantities of the Rust source are modelled as `ℝ` with exact
arithmetic.  Each definition mirrors one item of the source; the file of origin
is named in its doc comment.  Randomness (thread_rng draws) is modelled by
passing the drawn values as explicit parameters.
-/

namespace Raytracer

/-- Models `Vector` of src/vec.rs: a 3-component real vector. -/
structure Vector where
  x : ℝ
  y : ℝ
  z : ℝ

@[ext] theorem Vector.ext_xyz {a b : Vector}
    (hx : a.x = b.x) (hy : a.y = b.y) (hz : a.z = b.z) : a = b := by
  cases a; cases b; simp_all

/-- Models `Vector::length_squared` of src/vec.rs. -/
def Vector.length_squared (v : Vector) : ℝ :=
  v.x * v.x + v.y * v.y + v.z * v.z

/-- Models `Vector::length` of src/vec.rs. -/
noncomputable def Vector.length (v : Vector) : ℝ :=
  Real.sqrt v.length_squared

/-- Models `impl Neg for Vector` of src/vec.rs. -/
noncomputable instance : Neg Vector :=
  ⟨fun v => ⟨-v.x, -v.y, -v.z⟩⟩

/-- Models `impl Add for Vector` of src/vec.rs. -/
noncomputable instance : Add Vector :=
  ⟨fun a b => ⟨a.x + b.x, a.y + b.y, a.z + b.z⟩⟩

/-- Models `impl Sub for Vector` of src/vec.rs. -/
noncomputable instance : Sub Vector :=
  ⟨fun a b => ⟨a.x - b.x, a.y - b.y, a.z - b.z⟩⟩

/-- Models `impl Mul<f64> for Vector` of src/vec.rs (componentwise by rhs). -/
noncomputable instance : HMul Vector ℝ Vector :=
  ⟨fun v r => ⟨v.x * r, v.y * r, v.z * r⟩⟩

/-- Models `impl Mul<Vector> for f64` of src/vec.rs, which delegates to
`vec * self`. -/
noncomputable instance : HMul ℝ Vector Vector :=
  ⟨fun r v => v * r⟩

/-- Models `impl Div<f64> for Vector` of src/vec.rs: `self * (1.0 / rhs)`. -/
noncomputable instance : HDiv Vector ℝ Vector :=
  ⟨fun v r => v * (1 / r)⟩

@[simp] theorem Vector.neg_def (v : Vector) : -v = ⟨-v.x, -v.y, -v.z⟩ := rfl
@[simp] theorem Vector.add_def (a b : Vector) :
    a + b = ⟨a.x + b.x, a.y + b.y, a.z + b.z⟩ := rfl
@[simp] theorem Vector.sub_def (a b : Vector) :
    a - b = ⟨a.x - b.x, a.y - b.y, a.z - b.z⟩ := rfl
@[simp] theorem Vector.mul_real_def (v : Vector) (r : ℝ) :
    v * r = ⟨v.x * r, v.y * r, v.z * r⟩ := rfl
@[simp] theorem Vector.real_mul_def (r : ℝ) (v : Vector) :
    r * v = ⟨v.x * r, v.y * r, v.z * r⟩ := rfl
@[simp] theorem Vector.div_real_def (v : Vector) (r : ℝ) :
    v / r = ⟨v.x * (1 / r), v.y * (1 / r), v.z * (1 / r)⟩ := rfl

/-- Models `dot` of src/vec.rs. -/
def dot (a b : Vector) : ℝ :=
  a.x * b.x + a.y * b.y + a.z * b.z

/-- Models `unit` of src/vec.rs: `v / v.length()`, with no guard for the
zero-length case (real division by zero yields zero in this embedding;
IEEE doubles yield NaN components — in neither case a fallback direction). -/
noncomputable def unit (v : Vector) : Vector :=
  v / v.length

/-- Models `reflect` of src/vec.rs: `v - 2.0 * dot(v, normal) * normal`. -/
noncomputable def reflect (v normal : Vector) : Vector :=
  v - 2 * dot v normal * normal

/-- Models `Point` of src/vec.rs. -/
abbrev Point := Vector

/-- Models `Color` of src/image.rs. -/
structure Color where
  red : ℝ
  green : ℝ
  blue : ℝ

/-- Models the free function `clamp` of src/image.rs. -/
noncomputable def clamp (val min max : ℝ) : ℝ :=
  if val < min then min
  else if val > max then max
  else val

/-- Models `Color::clamp` of src/image.rs (mutation rendered functionally). -/
noncomputable def Color.clamp (c : Color) (min max : ℝ) : Color :=
  ⟨Raytracer.clamp c.red min max, Raytracer.clamp c.green min max,
    Raytracer.clamp c.blue min max⟩

/-- Models `colors::BLACK` of src/image.rs. -/
def colorsBLACK : Color := ⟨0, 0, 0⟩

/-- Models `Color::default` of src/image.rs. -/
def Color.default : Color := colorsBLACK

/-- Models `impl Add for Color` of src/image.rs. -/
noncomputable instance : Add Color :=
  ⟨fun a b => ⟨a.red + b.red, a.green + b.green, a.blue + b.blue⟩⟩

/-- Models `impl Mul<Color> for f64` of src/image.rs. -/
noncomputable instance : HMul ℝ Color Color :=
  ⟨fun r c => ⟨c.red * r, c.green * r, c.blue * r⟩⟩

/-- Models `impl Mul<Color> for Color` of src/image.rs (componentwise). -/
noncomputable instance : Mul Color :=
  ⟨fun a b => ⟨a.red * b.red, a.green * b.green, a.blue * b.blue⟩⟩

/-- Models `impl Div<f64> for Color` of src/image.rs: `(1.0 / val) * self`. -/
noncomputable instance : HDiv Color ℝ Color :=
  ⟨fun c v => (1 / v) * c⟩

@[simp] theorem Color.add_channels (a b : Color) :
    a + b = ⟨a.red + b.red, a.green + b.green, a.blue + b.blue⟩ := rfl
@[simp] theorem Color.real_mul_channels (r : ℝ) (c : Color) :
    r * c = ⟨c.red * r, c.green * r, c.blue * r⟩ := rfl
@[simp] theorem Color.mul_channels (a b : Color) :
    a * b = ⟨a.red * b.red, a.green * b.green, a.blue * b.blue⟩ := rfl
@[simp] theorem Color.div_real_channels (c : Color) (v : ℝ) :
    c / v = ⟨c.red * (1 / v), c.green * (1 / v), c.blue * (1 / v)⟩ := rfl

/-- Models `Ray` of src/ray.rs. -/
structure Ray where
  origin : Point
  direction : Vector

/-- Models `Ray::at` of src/ray.rs: `origin + t * direction` (`at` is a Lean
keyword, hence the name). -/
noncomputable def rayAt (r : Ray) (t : ℝ) : Point :=
  r.origin + t * r.direction

/-- Models the closed set of `dyn Material` variants of src/material.rs
(`Lambertian`, `Metal`, `Dielectric`). -/
inductive Material where
  | lambertian (albedo : Color)
  | metal (albedo : Color) (fuzz : ℝ)
  | dielectric (refraction_index : ℝ)

/-- Models `HitRecord` of src/ray.rs (the material reference becomes a plain
`Material` value). -/
structure HitRecord where
  point : Point
  normal : Vector
  t : ℝ
  material : Material
  front_face : Bool

/-- Models `HitRecord::new` of src/ray.rs: stores the normal as given when
`front_face` holds and negated otherwise. -/
noncomputable def HitRecord.new (point : Point) (normal : Vector) (t : ℝ)
    (front_face : Bool) (material : Material) : HitRecord :=
  { point := point
    normal := if front_face then normal else -normal
    t := t
    material := material
    front_face := front_face }


section SceneTraversal

variable {α : Type} [LinearOrder α]

/-- Least element of a list of parameters, or none on the empty list. -/
def minIn : List α → Option α
  | [] => none
  | a :: rest =>
    match minIn rest with
    | none => some a
    | some m => some (min a m)

/-- The `Hittable` contract of src/ray.rs, with a primitive abstracted by the
list of parameters at which the ray meets it (for the sole concrete variant,
`Sphere`, the two roots of the quadratic of src/sphere.rs): report the
nearest parameter strictly inside the interval, or none.
`sphere_selection_meets_contract` below checks the root selection of
src/sphere.rs against this contract. -/
def itemHitBy (roots : List α) (t_min t_max : α) : Option α :=
  minIn (roots.filter fun r => decide (t_min < r ∧ r < t_max))

/-- Models the loop of `HittableVec::hit_by` of src/ray.rs: scan the items,
narrowing the upper bound to the parameter of the nearest hit so far. -/
def hitLoop (t_min : α) : List (List α) → α → Option α → Option α
  | [], _, hit => hit
  | item :: rest, closest, hit =>
    match itemHitBy item t_min closest with
    | some t => hitLoop t_min rest t (some t)
    | none => hitLoop t_min rest closest hit

/-- Models `HittableVec::hit_by` of src/ray.rs: `closest` starts at `t_max`
and the running best hit at none. -/
def hittableVecHitBy (items : List (List α)) (t_min t_max : α) : Option α :=
  hitLoop t_min items t_max none

theorem minIn_eq_none {l : List α} : minIn l = none ↔ l = [] := by
  cases l with
  | nil => simp [minIn]
  | cons a rest =>
    simp only [minIn]
    cases minIn rest <;> simp

theorem minIn_eq_some_iff {l : List α} {m : α} :
    minIn l = some m ↔ m ∈ l ∧ ∀ x ∈ l, m ≤ x := by
  induction l generalizing m with
  | nil => simp [minIn]
  | cons a rest ih =>
    cases h : minIn rest with
    | none =>
      have hrest : rest = [] := minIn_eq_none.mp h
      subst hrest
      simp only [minIn]
      constructor
      · rintro hm
        injection hm with hm
        subst hm
        exact ⟨List.mem_singleton.mpr rfl,
          fun x hx => le_of_eq (List.mem_singleton.mp hx).symm⟩
      · rintro ⟨hmem, _⟩
        rw [List.mem_singleton] at hmem
        rw [hmem]
    | some m0 =>
      obtain ⟨hm0mem, hm0le⟩ := ih.mp h
      simp only [minIn, h, Option.some.injEq]
      constructor
      · rintro rfl
        constructor
        · rcases le_total a m0 with hle | hle
          · rw [min_eq_left hle]
            exact List.mem_cons_self a rest
          · rw [min_eq_right hle]
            exact List.mem_cons_of_mem a hm0mem
        · intro x hx
          rcases List.mem_cons.mp hx with rfl | hx
          · exact min_le_left _ _
          · exact le_trans (min_le_right a m0) (hm0le x hx)
      · rintro ⟨hmem, hle⟩
        have h1 : min a m0 ≤ m := by
          rcases List.mem_cons.mp hmem with rfl | hmem2
          · exact min_le_left m m0
          · exact le_trans (min_le_right a m0) (hm0le m hmem2)
        have h2 : m ≤ min a m0 :=
          le_min (hle a (List.mem_cons_self a rest))
            (hle m0 (List.mem_cons_of_mem a hm0mem))
        exact le_antisymm h1 h2

theorem minIn_perm {l1 l2 : List α} (h : l1.Perm l2) : minIn l1 = minIn l2 := by
  cases h1 : minIn l1 with
  | none =>
    rw [minIn_eq_none] at h1
    subst h1
    rw [Eq.comm, minIn_eq_none]
    exact h.nil_eq.symm
  | some m =>
    obtain ⟨hmem, hle⟩ := minIn_eq_some_iff.mp h1
    symm
    rw [minIn_eq_some_iff]
    exact ⟨h.mem_iff.mp hmem, fun x hx => hle x (h.mem_iff.mpr hx)⟩

theorem itemHitBy_eq_some_iff {roots : List α} {t_min t_max t : α} :
    itemHitBy roots t_min t_max = some t ↔
      t ∈ roots ∧ t_min < t ∧ t < t_max ∧
        ∀ r ∈ roots, t_min < r → r < t_max → t ≤ r := by
  rw [itemHitBy, minIn_eq_some_iff]
  simp only [List.mem_filter, decide_eq_true_eq]
  constructor
  · rintro ⟨⟨hmem, hlo, hhi⟩, hle⟩
    exact ⟨hmem, hlo, hhi, fun r hr h1 h2 => hle r ⟨hr, h1, h2⟩⟩
  · rintro ⟨hmem, hlo, hhi, hle⟩
    exact ⟨⟨hmem, hlo, hhi⟩, fun r hr => hle r hr.1 hr.2.1 hr.2.2⟩

theorem itemHitBy_eq_none_iff {roots : List α} {t_min t_max : α} :
    itemHitBy roots t_min t_max = none ↔
      ∀ r ∈ roots, ¬(t_min < r ∧ r < t_max) := by
  rw [itemHitBy, minIn_eq_none, List.filter_eq_nil_iff]
  simp

theorem hitLoop_eq (t_min : α) (items : List (List α)) :
    ∀ (closest : α) (hit : Option α),
      hitLoop t_min items closest hit =
        (itemHitBy items.flatten t_min closest).elim hit some := by
  induction items with
  | nil =>
    intro closest hit
    simp [hitLoop, itemHitBy, minIn]
  | cons item rest ih =>
    intro closest hit
    cases h : itemHitBy item t_min closest with
    | some t =>
      obtain ⟨htmem, htlo, hthi, htmin⟩ := itemHitBy_eq_some_iff.mp h
      simp only [hitLoop, h]
      rw [ih]
      cases hr : itemHitBy rest.flatten t_min t with
      | some m =>
        obtain ⟨hmmem, hmlo, hmhi, hmmin⟩ := itemHitBy_eq_some_iff.mp hr
        have hmain : itemHitBy (item :: rest).flatten t_min closest = some m := by
          rw [itemHitBy_eq_some_iff]
          refine ⟨?_, hmlo, lt_trans hmhi hthi, ?_⟩
          · rw [List.flatten_cons, List.mem_append]
            exact Or.inr hmmem
          · intro r hrmem hrlo hrhi
            rw [List.flatten_cons, List.mem_append] at hrmem
            rcases hrmem with hrmem | hrmem
            · exact le_trans (le_of_lt hmhi) (htmin r hrmem hrlo hrhi)
            · rcases lt_or_le r t with hrt | hrt
              · exact hmmin r hrmem hrlo hrt
              · exact le_trans (le_of_lt hmhi) hrt
        rw [hmain]
        rfl
      | none =>
        have hnone := itemHitBy_eq_none_iff.mp hr
        have hmain : itemHitBy (item :: rest).flatten t_min closest = some t := by
          rw [itemHitBy_eq_some_iff]
          refine ⟨?_, htlo, hthi, ?_⟩
          · rw [List.flatten_cons, List.mem_append]
            exact Or.inl htmem
          · intro r hrmem hrlo hrhi
            rw [List.flatten_cons, List.mem_append] at hrmem
            rcases hrmem with hrmem | hrmem
            · exact htmin r hrmem hrlo hrhi
            · by_contra hlt
              exact hnone r hrmem ⟨hrlo, lt_of_not_le hlt⟩
        rw [hmain]
        rfl
    | none =>
      have hnone := itemHitBy_eq_none_iff.mp h
      simp only [hitLoop, h]
      rw [ih]
      have hmain : itemHitBy (item :: rest).flatten t_min closest =
          itemHitBy rest.flatten t_min closest := by
        rw [itemHitBy, itemHitBy, List.flatten_cons, List.filter_append,
          List.filter_eq_nil_iff.mpr, List.nil_append]
        intro r hrmem
        simpa using hnone r hrmem
      rw [hmain]

theorem hittableVecHitBy_eq (items : List (List α)) (t_min t_max : α) :
    hittableVecHitBy items t_min t_max = itemHitBy items.flatten t_min t_max := by
  rw [hittableVecHitBy, hitLoop_eq]
  cases itemHitBy items.flatten t_min t_max <;> rfl

/-- The root selection of src/sphere.rs (smaller root if strictly inside the
interval, else larger root if strictly inside, else none) realizes the
`Hittable` nearest-parameter contract on the two sorted roots. -/
theorem sphere_selection_meets_contract (t1 t2 t_min t_max : α) (h12 : t1 ≤ t2) :
    (if t_min < t1 ∧ t1 < t_max then some t1
     else if t_min < t2 ∧ t2 < t_max then some t2 else none) =
      itemHitBy [t1, t2] t_min t_max := by
  by_cases h1 : t_min < t1 ∧ t1 < t_max <;>
    by_cases h2 : t_min < t2 ∧ t2 < t_max <;>
      simp [itemHitBy, minIn, h1, h2, min_eq_left h12]


/-- C1: for every interval and every scene (ordered list of hittable
primitives, each abstracted by the list of parameters at which the ray meets
it), `HittableVec::hit_by` returns a hit exactly when some primitive meets
the ray strictly inside (t_min, t_max); the returned parameter is the least
in-range intersection parameter over all primitives, and the result does not
depend on the order in which the primitives are stored. -/
theorem hittableVec_hit_by_nearest {α : Type} [LinearOrder α]
    (items : List (List α)) (t_min t_max : α) :
    (∀ t, hittableVecHitBy items t_min t_max = some t ↔
        ((∃ roots ∈ items, t ∈ roots) ∧ t_min < t ∧ t < t_max ∧
          ∀ roots ∈ items, ∀ r ∈ roots, t_min < r → r < t_max → t ≤ r))
    ∧ (hittableVecHitBy items t_min t_max = none ↔
        ¬∃ roots ∈ items, ∃ r ∈ roots, t_min < r ∧ r < t_max)
    ∧ ∀ items2, items.Perm items2 →
        hittableVecHitBy items t_min t_max = hittableVecHitBy items2 t_min t_max := by
  have hsome : ∀ (its : List (List α)) (t : α),
      hittableVecHitBy its t_min t_max = some t ↔
        ((∃ roots ∈ its, t ∈ roots) ∧ t_min < t ∧ t < t_max ∧
          ∀ roots ∈ its, ∀ r ∈ roots, t_min < r → r < t_max → t ≤ r) := by
    intro its t
    rw [hittableVecHitBy_eq, itemHitBy_eq_some_iff]
    constructor
    · rintro ⟨hmem, hlo, hhi, hmin⟩
      obtain ⟨roots, hroots, htr⟩ := List.mem_flatten.mp hmem
      exact ⟨⟨roots, hroots, htr⟩, hlo, hhi,
        fun rs hrs r hr h1 h2 => hmin r (List.mem_flatten.mpr ⟨rs, hrs, hr⟩) h1 h2⟩
    · rintro ⟨⟨roots, hroots, htr⟩, hlo, hhi, hmin⟩
      refine ⟨List.mem_flatten.mpr ⟨roots, hroots, htr⟩, hlo, hhi, ?_⟩
      intro r hr h1 h2
      obtain ⟨rs, hrs, hrr⟩ := List.mem_flatten.mp hr
      exact hmin rs hrs r hrr h1 h2
  have hnone : ∀ its : List (List α),
      hittableVecHitBy its t_min t_max = none ↔
        ¬∃ roots ∈ its, ∃ r ∈ roots, t_min < r ∧ r < t_max := by
    intro its
    rw [hittableVecHitBy_eq, itemHitBy_eq_none_iff]
    constructor
    · rintro hall ⟨roots, hroots, r, hr, h1, h2⟩
      exact hall r (List.mem_flatten.mpr ⟨roots, hroots, hr⟩) ⟨h1, h2⟩
    · intro hne r hr hcontra
      obtain ⟨rs, hrs, hrr⟩ := List.mem_flatten.mp hr
      exact hne ⟨rs, hrs, r, hrr, hcontra.1, hcontra.2⟩
  refine ⟨hsome items, hnone items, ?_⟩
  intro items2 hperm
  cases h2 : hittableVecHitBy items2 t_min t_max with
  | none =>
    rw [hnone items2] at h2
    rw [hnone items]
    rintro ⟨roots, hroots, r, hr, h1, hh2⟩
    exact h2 ⟨roots, hperm.mem_iff.mp hroots, r, hr, h1, hh2⟩
  | some t =>
    rw [hsome items2 t] at h2
    obtain ⟨⟨roots, hroots, htr⟩, hlo, hhi, hmin⟩ := h2
    rw [hsome items t]
    exact ⟨⟨roots, hperm.mem_iff.mpr hroots, htr⟩, hlo, hhi,
      fun rs hrs r hr ha hb => hmin rs (hperm.mem_iff.mp hrs) r hr ha hb⟩

/-- Witness for C1 at a concrete rational scene: the primitive listed first
holds the roots 3 and 1, the second the root 2; the nearest in-range
parameter, 1, is returned. -/
theorem hittableVec_hit_by_nearest_witness :
    hittableVecHitBy [[(3 : ℚ), 1], [2]] 0 10 = some 1 :=
  ((hittableVec_hit_by_nearest [[(3 : ℚ), 1], [2]] 0 10).1 1).mpr
    ⟨⟨[3, 1], by decide, by decide⟩, by decide, by decide, by decide⟩

end SceneTraversal


/-- Models the body of `Sphere::hit` of src/sphere.rs restricted to the
selection of the intersection parameter t (the part of that snapshot that is
consistent with the rest of the sources): quadratic coefficients, the
discriminant test, then the smaller root if strictly inside the interval,
else the larger root if strictly inside, else none. -/
noncomputable def sphereHitT (center : Point) (radius : ℝ) (ray : Ray)
    (t_min t_max : ℝ) : Option ℝ :=
  let c_to_o := ray.origin - center
  let a := ray.direction.length_squared
  let half_b := dot ray.direction c_to_o
  let c := c_to_o.length_squared - radius * radius
  let discriminant := half_b * half_b - a * c
  if discriminant < 0 then none
  else
    let discr_sqrt := Real.sqrt discriminant
    let t1 := (-half_b - discr_sqrt) / a
    if t_min < t1 ∧ t1 < t_max then some t1
    else
      let t2 := (-half_b + discr_sqrt) / a
      if t_min < t2 ∧ t2 < t_max then some t2 else none

/-- C2: the sphere intersection returns none when the discriminant h² − a·c
is negative, where a = |D|², h = dot(D, O − C), c = |O − C|² − r²; otherwise
it returns the smaller root (−h − √disc)/a when that root lies strictly
inside (t_min, t_max), else the larger root (−h + √disc)/a when that lies
strictly inside, else none (both bounds exclusive). -/
theorem sphere_hit_root_selection (center : Point) (radius : ℝ) (ray : Ray)
    (t_min t_max a h c disc : ℝ)
    (ha : a = ray.direction.length_squared)
    (hh : h = dot ray.direction (ray.origin - center))
    (hc : c = (ray.origin - center).length_squared - radius * radius)
    (hd : disc = h * h - a * c) :
    (disc < 0 → sphereHitT center radius ray t_min t_max = none)
    ∧ (0 ≤ disc →
        sphereHitT center radius ray t_min t_max =
          if t_min < (-h - Real.sqrt disc) / a ∧ (-h - Real.sqrt disc) / a < t_max
          then some ((-h - Real.sqrt disc) / a)
          else if t_min < (-h + Real.sqrt disc) / a ∧ (-h + Real.sqrt disc) / a < t_max
          then some ((-h + Real.sqrt disc) / a)
          else none) := by
  subst ha hh hc hd
  constructor
  · intro hneg
    simp only [sphereHitT]
    rw [if_pos hneg]
  · intro hpos
    simp only [sphereHitT]
    rw [if_neg (not_lt.mpr hpos)]

/-- Witness for C2: the unit sphere at the origin against the ray from
(0,0,2) towards −z has a = 1, h = −2, c = 3, disc = 1 ≥ 0. -/
theorem sphere_hit_root_selection_witness :
    (0 : ℝ) ≤ 1 ∧
      sphereHitT ⟨0, 0, 0⟩ 1 ⟨⟨0, 0, 2⟩, ⟨0, 0, -1⟩⟩ 0 10 =
        (if (0 : ℝ) < (-(-2) - Real.sqrt 1) / 1 ∧ (-(-2) - Real.sqrt 1) / 1 < 10
         then some ((-(-2) - Real.sqrt 1) / 1)
         else if (0 : ℝ) < (-(-2) + Real.sqrt 1) / 1 ∧ (-(-2) + Real.sqrt 1) / 1 < 10
         then some ((-(-2) + Real.sqrt 1) / 1)
         else none) :=
  ⟨by norm_num,
    (sphere_hit_root_selection ⟨0, 0, 0⟩ 1 ⟨⟨0, 0, 2⟩, ⟨0, 0, -1⟩⟩ 0 10 1 (-2) 3 1
      (by norm_num [Vector.length_squared])
      (by norm_num [dot])
      (by norm_num [Vector.length_squared])
      (by norm_num)).2 (by norm_num)⟩


/-- Modelled from the spec: the complete `Sphere::hit` of the repository is
missing from src (src/sphere.rs is a superseded snapshot whose record
construction calls a 3-argument `HitRecord::new`, which does not match the
5-argument `HitRecord::new` of src/ray.rs, and whose `Sphere` carries no
material even though src/main.rs constructs spheres with one).  The root
selection follows src/sphere.rs (`sphereHitT`); the record construction
follows spec section 4.3: outward normal = (hit_point − center)/radius,
front_face determined by dot(ray.direction, outward) < 0, and the record is
built through `HitRecord::new` of src/ray.rs with the material of the
sphere. -/
noncomputable def sphereHitFull (center : Point) (radius : ℝ) (material : Material)
    (ray : Ray) (t_min t_max : ℝ) : Option HitRecord :=
  (sphereHitT center radius ray t_min t_max).map fun t =>
    let intersect := rayAt ray t
    let outward := (intersect - center) / radius
    HitRecord.new intersect outward t (decide (dot ray.direction outward < 0)) material

theorem lsq_rayAt_sub (ray : Ray) (center : Point) (u : ℝ) :
    (rayAt ray u - center).length_squared =
      (ray.origin - center).length_squared
        + 2 * u * dot ray.direction (ray.origin - center)
        + u ^ 2 * ray.direction.length_squared := by
  simp only [rayAt, Vector.length_squared, dot, Vector.add_def, Vector.sub_def,
    Vector.real_mul_def]
  ring

theorem root_quadratic (L HB A S R : ℝ) (hA : A ≠ 0)
    (hs : S * S = HB * HB - A * (L - R * R)) (t : ℝ)
    (ht : t = (-HB - S) / A ∨ t = (-HB + S) / A) :
    L + 2 * t * HB + t ^ 2 * A = R * R := by
  apply mul_left_cancel₀ hA
  have key : ∀ u : ℝ, A * (L + 2 * u * HB + u ^ 2 * A) =
      A * L + 2 * (A * u) * HB + (A * u) ^ 2 := by
    intro u
    ring
  rcases ht with rfl | rfl
  · rw [key, mul_div_cancel₀ _ hA]
    linear_combination hs
  · rw [key, mul_div_cancel₀ _ hA]
    linear_combination hs

/-- A parameter returned by the root selection of src/sphere.rs puts the ray
point exactly on the sphere surface (exact real arithmetic, nondegenerate
direction). -/
theorem sphere_root_lengthSquared (center : Point) (radius : ℝ) (ray : Ray)
    (t_min t_max t : ℝ) (hdir : ray.direction.length_squared ≠ 0)
    (hht : sphereHitT center radius ray t_min t_max = some t) :
    (rayAt ray t - center).length_squared = radius * radius := by
  simp only [sphereHitT] at hht
  split_ifs at hht with hneg h1 h2
  all_goals
    first
      | exact Option.noConfusion hht
      | (injection hht with hht
         subst hht
         rw [lsq_rayAt_sub]
         refine root_quadratic _ _ _ _ _ hdir
           (Real.mul_self_sqrt (not_lt.mp hneg)) _ ?_
         first
           | exact Or.inl rfl
           | exact Or.inr rfl)

theorem lsq_neg (v : Vector) : (-v).length_squared = v.length_squared := by
  simp only [Vector.neg_def, Vector.length_squared]
  ring

theorem lsq_div (v : Vector) (r : ℝ) :
    (v / r).length_squared = v.length_squared * (1 / r) ^ 2 := by
  simp only [Vector.div_real_def, Vector.length_squared]
  ring

theorem length_signed_unit (b : Bool) (v : Vector) (h : v.length_squared = 1) :
    (if b then v else -v).length = 1 := by
  cases b
  · show (-v).length = 1
    rw [Vector.length, lsq_neg, h, Real.sqrt_one]
  · show v.length = 1
    rw [Vector.length, h, Real.sqrt_one]

/-- C3 (amended): every record produced by the (spec-modelled) full sphere
intersection has front_face true exactly when dot(ray.direction, outward)
is negative, where outward = (hit_point − center)/radius, and stores outward
when front_face holds and its negation otherwise; the stored normal is unit
length whenever the radius and the ray direction are nonzero. -/
theorem sphere_hit_record_normal (center : Point) (radius : ℝ) (mat : Material)
    (ray : Ray) (t_min t_max : ℝ) (rec : HitRecord)
    (hht : sphereHitFull center radius mat ray t_min t_max = some rec) :
    (rec.front_face = true ↔ dot ray.direction ((rec.point - center) / radius) < 0)
    ∧ rec.normal = (if rec.front_face then (rec.point - center) / radius
        else -((rec.point - center) / radius))
    ∧ (radius ≠ 0 → ray.direction.length_squared ≠ 0 → rec.normal.length = 1) := by
  cases hT : sphereHitT center radius ray t_min t_max with
  | none => rw [sphereHitFull, hT] at hht; exact absurd hht (by simp)
  | some t =>
    rw [sphereHitFull, hT] at hht
    simp only [Option.map_some', Option.some.injEq] at hht
    subst hht
    refine ⟨decide_eq_true_iff, rfl, ?_⟩
    intro hrad hdir
    have hlsq := sphere_root_lengthSquared center radius ray t_min t_max t hdir hT
    have core : ((rayAt ray t - center) / radius).length_squared = 1 := by
      rw [lsq_div, hlsq]
      field_simp
      ring
    exact length_signed_unit _ _ core

/-- C3 counterexample: a radius-0 sphere met by the ray through its center
produces a record whose stored normal is the zero vector (NaN components in
IEEE doubles), which is not unit length. -/
theorem sphere_hit_record_normal_cex :
    sphereHitFull ⟨0, 0, 1⟩ 0 (Material.lambertian ⟨0, 0, 0⟩)
        ⟨⟨0, 0, 0⟩, ⟨0, 0, 1⟩⟩ 0 2 =
      some { point := ⟨0, 0, 1⟩, normal := ⟨0, 0, 0⟩, t := 1,
             material := Material.lambertian ⟨0, 0, 0⟩, front_face := false }
    ∧ Vector.length ⟨0, 0, 0⟩ ≠ 1 := by
  constructor
  · have h0 : sphereHitT ⟨0, 0, 1⟩ 0 ⟨⟨0, 0, 0⟩, ⟨0, 0, 1⟩⟩ 0 2 = some 1 := by
      simp only [sphereHitT, dot, Vector.sub_def, Vector.length_squared]
      norm_num
    have hcond : ¬ dot (⟨0, 0, 1⟩ : Vector)
        ((rayAt ⟨⟨0, 0, 0⟩, ⟨0, 0, 1⟩⟩ 1 - ⟨0, 0, 1⟩) / (0 : ℝ)) < 0 := by
      simp [dot, rayAt]
    rw [sphereHitFull, h0]
    simp only [Option.map_some', Option.some.injEq, HitRecord.new,
      decide_eq_false hcond]
    simp [rayAt, HitRecord.mk.injEq]
  · rw [Vector.length]
    simp [Vector.length_squared]

/-- Witness for the amended C3 at the unit sphere met from outside: the
produced record stores the unit normal (0,0,1). -/
theorem sphere_hit_record_normal_witness :
    Vector.length ⟨0, 0, 1⟩ = 1 := by
  have h0 : sphereHitT ⟨0, 0, 0⟩ 1 ⟨⟨0, 0, 2⟩, ⟨0, 0, -1⟩⟩ 0 10 = some 1 := by
    simp only [sphereHitT, dot, Vector.sub_def, Vector.length_squared]
    norm_num [Real.sqrt_one]
  have hcond : dot (⟨0, 0, -1⟩ : Vector)
      ((rayAt ⟨⟨0, 0, 2⟩, ⟨0, 0, -1⟩⟩ 1 - ⟨0, 0, 0⟩) / (1 : ℝ)) < 0 := by
    simp [dot, rayAt]
  have hht : sphereHitFull ⟨0, 0, 0⟩ 1 (Material.metal ⟨1, 1, 1⟩ 0)
      ⟨⟨0, 0, 2⟩, ⟨0, 0, -1⟩⟩ 0 10 =
        some { point := ⟨0, 0, 1⟩, normal := ⟨0, 0, 1⟩, t := 1,
               material := Material.metal ⟨1, 1, 1⟩ 0, front_face := true } := by
    rw [sphereHitFull, h0]
    simp only [Option.map_some', Option.some.injEq, HitRecord.new,
      decide_eq_true hcond]
    simp [rayAt, HitRecord.mk.injEq]
    norm_num
  exact (sphere_hit_record_normal _ _ _ _ _ _ _ hht).2.2 (by norm_num)
    (by norm_num [Vector.length_squared])

/-- Models `MaterialEffect` of src/material.rs. -/
structure MaterialEffect where
  attenuation : Color
  scattered : Option Ray

/-- Models `MaterialEffect::new` of src/material.rs. -/
def MaterialEffect.new (attenuation : Color) (scatter : Ray) : MaterialEffect :=
  ⟨attenuation, some scatter⟩

/-- Models `MaterialEffect::with_attenuation` of src/material.rs. -/
def MaterialEffect.with_attenuation (attenuation : Color) : MaterialEffect :=
  ⟨attenuation, none⟩

/-- Models `Lambertian::scatter` of src/material.rs, with the
`random_unit_vector()` draw passed as `rnd`. -/
noncomputable def lambertianScatter (albedo : Color) (_ray : Ray)
    (hit : HitRecord) (rnd : Vector) : MaterialEffect :=
  MaterialEffect.new albedo ⟨hit.point, hit.normal + rnd⟩

/-- Models `Metal::new` of src/material.rs: fuzz clamped from above only. -/
noncomputable def metalNew (albedo : Color) (fuziness : ℝ) : Material :=
  Material.metal albedo (if fuziness < 1 then fuziness else 1)

/-- Models `Metal::scatter` of src/material.rs, with the
`random_unit_vector()` draw passed as `rnd`: the reflection test is made on
the unfuzzed reflected vector, the fuzz perturbation being added to the
emitted ray direction only. -/
noncomputable def metalScatter (albedo : Color) (fuzz : ℝ) (ray : Ray)
    (hit : HitRecord) (rnd : Vector) : MaterialEffect :=
  let reflected := reflect ray.direction hit.normal
  if dot reflected hit.normal > 0 then
    MaterialEffect.new albedo ⟨hit.point, reflected + fuzz * rnd⟩
  else
    MaterialEffect.with_attenuation albedo

/-- C4 counterexample: with normal (0,0,1), incoming direction (0,0,−1),
fuzz 1 and random sample (0,0,−1), the fuzzed reflected vector
reflect + fuzz·rnd is the zero vector, so the condition of the claim fails,
yet the code emits a scattered ray because its test uses the unfuzzed
reflected vector. -/
theorem metal_scatter_cex :
    ¬ dot (reflect (⟨0, 0, -1⟩ : Vector) ⟨0, 0, 1⟩ + (1 : ℝ) * (⟨0, 0, -1⟩ : Vector)) ⟨0, 0, 1⟩ > 0
    ∧ (metalScatter ⟨1, 1, 1⟩ 1 ⟨⟨0, 0, 0⟩, ⟨0, 0, -1⟩⟩
        { point := ⟨0, 0, 0⟩, normal := ⟨0, 0, 1⟩, t := 1,
          material := Material.metal ⟨1, 1, 1⟩ 1, front_face := true }
        ⟨0, 0, -1⟩).scattered ≠ none := by
  constructor
  · simp [reflect, dot]
    norm_num
  · have hpos : dot (reflect (⟨0, 0, -1⟩ : Vector) ⟨0, 0, 1⟩) ⟨0, 0, 1⟩ > 0 := by
      norm_num [reflect, dot]
    simp [metalScatter, hpos, MaterialEffect.new]

/-- C4 (amended): Metal scatter emits a scattered ray exactly when
dot(reflect(incoming.direction, hit.normal), hit.normal) > 0, the test
being made before the fuzz perturbation; the emitted direction is the
reflected vector plus fuzz times the random unit sample, and the
attenuation is the albedo in both outcomes. -/
theorem metal_scatter_effect (albedo : Color) (fuzz : ℝ) (ray : Ray)
    (hit : HitRecord) (rnd : Vector) :
    (metalScatter albedo fuzz ray hit rnd).attenuation = albedo
    ∧ ((metalScatter albedo fuzz ray hit rnd).scattered = none ↔
        ¬ dot (reflect ray.direction hit.normal) hit.normal > 0)
    ∧ (dot (reflect ray.direction hit.normal) hit.normal > 0 →
        (metalScatter albedo fuzz ray hit rnd).scattered =
          some ⟨hit.point, reflect ray.direction hit.normal + fuzz * rnd⟩) := by
  by_cases h : dot (reflect ray.direction hit.normal) hit.normal > 0
  · simp [metalScatter, h, MaterialEffect.new]
  · simp [metalScatter, h, MaterialEffect.with_attenuation]

/-- Witness for the amended C4: a mirror-aligned reflection with fuzz 0
passes the test and scatters. -/
theorem metal_scatter_effect_witness :
    dot (reflect (⟨0, 0, -1⟩ : Vector) ⟨0, 0, 1⟩) ⟨0, 0, 1⟩ > 0
    ∧ (metalScatter ⟨1, 1, 1⟩ 0 ⟨⟨0, 0, 0⟩, ⟨0, 0, -1⟩⟩
        { point := ⟨0, 0, 0⟩, normal := ⟨0, 0, 1⟩, t := 1,
          material := Material.metal ⟨1, 1, 1⟩ 0, front_face := true }
        ⟨0, 1, 0⟩).scattered =
        some ⟨⟨0, 0, 0⟩, reflect (⟨0, 0, -1⟩ : Vector) ⟨0, 0, 1⟩ + (0 : ℝ) * (⟨0, 1, 0⟩ : Vector)⟩ :=
  ⟨by norm_num [reflect, dot],
    (metal_scatter_effect ⟨1, 1, 1⟩ 0 ⟨⟨0, 0, 0⟩, ⟨0, 0, -1⟩⟩
      { point := ⟨0, 0, 0⟩, normal := ⟨0, 0, 1⟩, t := 1,
        material := Material.metal ⟨1, 1, 1⟩ 0, front_face := true }
      ⟨0, 1, 0⟩).2.2 (by norm_num [reflect, dot])⟩

/-- C7: Lambertian scatter always returns a scattered ray, and its
attenuation is the albedo of the material. -/
theorem lambertian_scatter_total (albedo : Color) (ray : Ray)
    (hit : HitRecord) (rnd : Vector) :
    (∃ r, (lambertianScatter albedo ray hit rnd).scattered = some r)
    ∧ (lambertianScatter albedo ray hit rnd).attenuation = albedo :=
  ⟨⟨⟨hit.point, hit.normal + rnd⟩, rfl⟩, rfl⟩

/-- C6: evaluation at the failing inputs: `unit` divides by the length with
no zero guard, mapping the zero vector to the zero vector (0/0 = NaN
components in IEEE doubles) rather than to any fallback direction, and
Lambertian scatter emits a degenerate zero-direction ray when the random
unit sample cancels the normal. -/
theorem unit_zero_unguarded :
    unit ⟨0, 0, 0⟩ = ⟨0, 0, 0⟩
    ∧ Vector.length (unit ⟨0, 0, 0⟩) ≠ 1
    ∧ (lambertianScatter ⟨0.5, 0.5, 0.5⟩ ⟨⟨0, 0, 0⟩, ⟨0, 0, -1⟩⟩
        { point := ⟨0, 0, 0⟩, normal := ⟨0, 0, 1⟩, t := 1,
          material := Material.lambertian ⟨0.5, 0.5, 0.5⟩, front_face := true }
        ⟨0, 0, -1⟩).scattered = some ⟨⟨0, 0, 0⟩, ⟨0, 0, 0⟩⟩ := by
  have h1 : unit ⟨0, 0, 0⟩ = ⟨0, 0, 0⟩ := by
    simp [unit]
  have h2 : Vector.length (⟨0, 0, 0⟩ : Vector) = 0 := by
    rw [Vector.length]
    simp [Vector.length_squared]
  refine ⟨h1, ?_, ?_⟩
  · rw [h1, h2]
    norm_num
  · simp [lambertianScatter, MaterialEffect.new, Ray.mk.injEq]

/-- Models `Viewport` of src/main.rs. -/
structure Viewport where
  width : ℝ
  height : ℝ

/-- Models `Camera` of src/main.rs. -/
structure Camera where
  position : Point
  viewport : Viewport
  focal : ℝ
  lower_left_corner : Point
  horizontal : Vector
  vertical : Vector
  u : Vector
  v : Vector
  w : Vector
  lens_radius : ℝ

/-- Models `Camera::ray` of src/main.rs, with the `random_in_unit_disk()`
draw passed as `disk`. -/
noncomputable def cameraRay (cam : Camera) (t s : ℝ) (disk : Vector) : Ray :=
  let rd := cam.lens_radius * disk
  let offset := rd.x * cam.u + rd.y * cam.v
  { origin := cam.position + offset
    direction := cam.lower_left_corner + t * cam.horizontal + s * cam.vertical
      - cam.position - offset }

/-- C8: for every camera configuration, normalized image coordinates and
lens-disk sample, the camera ray evaluated at parameter 1 lands on the
focal-plane point lower_left_corner + t·horizontal + s·vertical,
independently of the lens offset. -/
theorem camera_ray_at_one (cam : Camera) (t s : ℝ) (disk : Vector) :
    rayAt (cameraRay cam t s disk) 1 =
      cam.lower_left_corner + t * cam.horizontal + s * cam.vertical := by
  ext <;> simp [rayAt, cameraRay]

/-- Models `Image` of src/image.rs. -/
structure Image where
  width : ℕ
  height : ℕ
  data : List Color

/-- Models `Image::new` of src/image.rs: a buffer of width·height default
(black) pixels. -/
noncomputable def Image.new (width height : ℕ) : Image :=
  ⟨width, height, List.replicate (width * height) Color.default⟩

/-- Models `RenderSettings` of src/main.rs; `gamma` holds the exponent 1/G
stored by the `gamma` builder setter. -/
structure RenderSettings where
  antialiasing_samples : ℕ
  ray_bounce_limit : ℕ
  gamma : ℝ

/-- Models the per-pixel sample accumulation loop of `fill_image` of
src/main.rs: `color` starts at BLACK and adds one `ray_color` estimate per
sample. -/
noncomputable def sampleSum (samples : ℕ) (estimate : ℕ → Color) : Color :=
  (List.range samples).foldl (fun color k => color + estimate k) colorsBLACK

/-- Models the per-pixel postprocessing of `fill_image` of src/main.rs:
divide the accumulated color by the sample count, raise each channel to the
stored gamma exponent, clamp each channel to [0, 0.999]. -/
noncomputable def correctedPixel (samples : ℕ) (gamma : ℝ) (acc : Color) : Color :=
  let c := acc / (samples : ℝ)
  Color.clamp ⟨c.red ^ gamma, c.green ^ gamma, c.blue ^ gamma⟩ 0 0.999

/-- Models `fill_image` of src/main.rs: every pixel (line, col) of the
width·height row-major grid is written with the clamped, gamma-corrected
mean of its sample estimates.  The estimate function abstracts
`ray_color(camera.ray(u, v), world, bounce_limit)` together with the random
stream, quantifying the claim over every scene, camera and random draw. -/
noncomputable def fillImage (width height : ℕ) (settings : RenderSettings)
    (estimate : ℕ → ℕ → ℕ → Color) : Image :=
  { width := width
    height := height
    data := (List.range height).flatMap fun line =>
      (List.range width).map fun col =>
        correctedPixel settings.antialiasing_samples settings.gamma
          (sampleSum settings.antialiasing_samples (estimate line col)) }

theorem clamp_bounds (v lo hi : ℝ) (h : lo ≤ hi) :
    lo ≤ clamp v lo hi ∧ clamp v lo hi ≤ hi := by
  rw [clamp]
  split_ifs with h1 h2
  · exact ⟨le_refl lo, h⟩
  · exact ⟨h, le_refl hi⟩
  · exact ⟨not_lt.mp h1, not_lt.mp h2⟩

/-- C5: after `fill_image`, every stored pixel has its red, green and blue
channels inside [0, 0.999]: each pixel is the mean of its sample estimates,
gamma-corrected, then clamped before the write. -/
theorem fill_image_channels_clamped (width height : ℕ)
    (settings : RenderSettings) (estimate : ℕ → ℕ → ℕ → Color) :
    ∀ c ∈ (fillImage width height settings estimate).data,
      (0 ≤ c.red ∧ c.red ≤ 0.999) ∧ (0 ≤ c.green ∧ c.green ≤ 0.999) ∧
        (0 ≤ c.blue ∧ c.blue ≤ 0.999) := by
  intro c hc
  simp only [fillImage, List.mem_flatMap, List.mem_map, List.mem_range] at hc
  obtain ⟨line, _, col, _, rfl⟩ := hc
  have h999 : (0 : ℝ) ≤ 0.999 := by norm_num
  exact ⟨clamp_bounds _ _ _ h999, clamp_bounds _ _ _ h999, clamp_bounds _ _ _ h999⟩

/-- Witness for C5: a 1×1 render with one black sample and gamma exponent 1
stores the pixel (0,0,0), whose channels the theorem bounds. -/
theorem fill_image_channels_clamped_witness :
    (0 ≤ (Color.mk 0 0 0).red ∧ (Color.mk 0 0 0).red ≤ 0.999)
    ∧ (0 ≤ (Color.mk 0 0 0).green ∧ (Color.mk 0 0 0).green ≤ 0.999)
    ∧ (0 ≤ (Color.mk 0 0 0).blue ∧ (Color.mk 0 0 0).blue ≤ 0.999) :=
  fill_image_channels_clamped 1 1 ⟨1, 0, 1⟩ (fun _ _ _ => ⟨0, 0, 0⟩) ⟨0, 0, 0⟩
    (by
      simp [fillImage, correctedPixel, sampleSum, colorsBLACK, Color.clamp,
        clamp, Real.rpow_one]
      norm_num)

/-- Models the rejection loop of `random_in_unit_disk` of src/vec.rs on an
explicit stream of `gen_range(0.0, 1.0)` draws: return the first draw g
with x² + g² < 1, none if the modelled stream runs out first. -/
noncomputable def diskLoop (x_square : ℝ) : List ℝ → Option ℝ
  | [] => none
  | guess :: rest =>
    if x_square + guess * guess < 1 then some guess else diskLoop x_square rest

/-- Models `random_in_unit_disk` of src/vec.rs, with the `gen_range(-1.0,
1.0)` draw `x` and the loop draws `ys` passed explicitly. -/
noncomputable def random_in_unit_disk (x : ℝ) (ys : List ℝ) : Option Vector :=
  (diskLoop (x * x) ys).map fun y => ⟨x, y, 0⟩

/-- C9: whenever the rejection loop terminates on draws inside the modelled
generator ranges, the returned sample lies in the upper half of the unit
disk: z = 0, x ∈ [−1, 1), y ∈ [0, 1) (never negative), and x² + y² < 1. -/
theorem random_in_unit_disk_upper_half (x : ℝ) (ys : List ℝ) (v : Vector)
    (hx : -1 ≤ x ∧ x < 1) (hys : ∀ g ∈ ys, 0 ≤ g ∧ g < 1)
    (hv : random_in_unit_disk x ys = some v) :
    v.z = 0 ∧ -1 ≤ v.x ∧ v.x < 1 ∧ 0 ≤ v.y ∧ v.y < 1 ∧ v.x ^ 2 + v.y ^ 2 < 1 := by
  have hloop : ∀ (l : List ℝ) (y : ℝ), (∀ g ∈ l, 0 ≤ g ∧ g < 1) →
      diskLoop (x * x) l = some y → (0 ≤ y ∧ y < 1) ∧ x * x + y * y < 1 := by
    intro l
    induction l with
    | nil =>
      intro y _ h
      exact absurd h (by simp [diskLoop])
    | cons g rest ih =>
      intro y hall h
      rw [diskLoop] at h
      split_ifs at h with hcond
      · injection h with h
        subst h
        exact ⟨hall _ (List.mem_cons_self _ _), hcond⟩
      · exact ih y (fun g2 hg2 => hall g2 (List.mem_cons_of_mem _ hg2)) h
  rw [random_in_unit_disk] at hv
  cases hy : diskLoop (x * x) ys with
  | none =>
    rw [hy] at hv
    exact absurd hv (by simp)
  | some y =>
    rw [hy] at hv
    simp only [Option.map_some', Option.some.injEq] at hv
    subst hv
    obtain ⟨⟨hy0, hy1⟩, hxy⟩ := hloop ys y hys hy
    exact ⟨rfl, hx.1, hx.2, hy0, hy1, by nlinarith [hxy]⟩

/-- Witness for C9: x = 0 with loop stream [1/2] is accepted at once,
producing the sample (0, 1/2, 0). -/
theorem random_in_unit_disk_upper_half_witness :
    (⟨0, 1/2, 0⟩ : Vector).z = 0 ∧ -1 ≤ (⟨0, 1/2, 0⟩ : Vector).x
    ∧ (⟨0, 1/2, 0⟩ : Vector).x < 1 ∧ 0 ≤ (⟨0, 1/2, 0⟩ : Vector).y
    ∧ (⟨0, 1/2, 0⟩ : Vector).y < 1
    ∧ (⟨0, 1/2, 0⟩ : Vector).x ^ 2 + (⟨0, 1/2, 0⟩ : Vector).y ^ 2 < 1 :=
  random_in_unit_disk_upper_half 0 [1/2] ⟨0, 1/2, 0⟩ (by norm_num)
    (by
      intro g hg
      rw [List.mem_singleton] at hg
      subst hg
      norm_num)
    (by norm_num [random_in_unit_disk, diskLoop])

/-- The flat indices at which `PPMWriter::write` of src/ppm.rs reads the
pixel buffer: row l, column c is read at l·height + c. -/
def ppmIndices (width height : ℕ) : List ℕ :=
  (List.range height).flatMap fun l => (List.range width).map fun c => l * height + c

@[simp] theorem Image.new_height (w h : ℕ) : (Image.new w h).height = h := rfl
@[simp] theorem Image.new_width (w h : ℕ) : (Image.new w h).width = w := rfl

/-- The pixel reads of `PPMWriter::write` of src/ppm.rs against an image, as
optional lookups; `none` is an access past the end of the buffer (a panic in
the Rust source). -/
noncomputable def ppmReads (img : Image) : List (Option Color) :=
  (List.range img.height).flatMap fun l =>
    (List.range img.width).map fun c => img.data.get? (l * img.height + c)

/-- C10 counterexample: (i) the 0×1 image has height exceeding width yet
`write` performs no access at all, so no access is past the end; (ii) the
2×1 image has width different from height yet every read uses exactly the
contractual row-major index l·width + c. -/
theorem ppm_write_index_cex :
    ((0 : ℕ) < 1 ∧ ∀ i ∈ ppmIndices 0 1, i < 0 * 1)
    ∧ ((2 : ℕ) ≠ 1 ∧ ppmIndices 2 1 =
        (List.range 1).flatMap fun l => (List.range 2).map fun c => l * 2 + c) := by
  refine ⟨⟨by norm_num, by decide⟩, by norm_num, by decide⟩

/-- C10 (amended): `PPMWriter::write` reads pixel (l, c) at flat index
l·height + c; when width = height or height ≤ 1 these coincide with the
contractual row-major indices l·width + c, and whenever 1 ≤ width < height
some read falls past the end of the width·height buffer. -/
theorem ppm_write_index_bug (width height : ℕ) :
    ((width = height ∨ height ≤ 1) → ppmIndices width height =
        (List.range height).flatMap fun l =>
          (List.range width).map fun c => l * width + c)
    ∧ (1 ≤ width → width < height →
        ∃ o ∈ ppmReads (Image.new width height), o = none) := by
  constructor
  · rintro (rfl | hle)
    · rfl
    · interval_cases height
      · rfl
      · have h1 : List.range 1 = [0] := rfl
        rw [ppmIndices, h1]
        simp only [List.flatMap_cons, List.flatMap_nil, List.append_nil,
          Nat.zero_mul, Nat.zero_add]
  · intro hw hh
    refine ⟨(Image.new width height).data.get? ((height - 1) * height + 0), ?_, ?_⟩
    · simp only [ppmReads, Image.new_height, Image.new_width, List.mem_flatMap,
        List.mem_map, List.mem_range]
      exact ⟨height - 1, by omega, 0, by omega, rfl⟩
    · rw [List.get?_eq_none]
      have hlen : (Image.new width height).data.length = width * height := by
        simp [Image.new]
      rw [hlen]
      have hstep : width ≤ height - 1 := by omega
      calc width * height ≤ (height - 1) * height :=
            Nat.mul_le_mul_right height hstep
        _ ≤ (height - 1) * height + 0 := by omega

/-- Witness for the amended C10: the 1×2 image has a read past the end of
its 2-pixel buffer. -/
theorem ppm_write_index_bug_witness :
    ∃ o ∈ ppmReads (Image.new 1 2), o = none :=
  (ppm_write_index_bug 1 2).2 (by norm_num) (by norm_num)

end Raytracer
